import Mathlib

/-!
Verification of the nfc-agent repository's core behaviors against its
natural-language specification.  Go strings are embedded as `List Char`,
bytes as `Nat` (with explicit `% 256` where Go truncates), and stateful
code as explicit state-passing functions.
-/

namespace NfcAgent

/-- A Go string, embedded as its list of characters. -/
abbrev GoStr := List Char

/-! ## URI prefix table (NDEF codec, component C2 of the spec)

The implementation file holding `getURIPrefix` / `findURIPrefix` is not
among the sources; the unit tests `TestGetURIPrefix` and
`TestFindURIPrefix` in `internal/core/readers_test.go` pin down every
table entry and the check order, and the definitions below follow them. -/

/-- Modelled from the spec: the URI prefix table (codes `0x01..0x23`).
The implementation file is absent from the sources; every entry below is
the one asserted by `TestGetURIPrefix` in `internal/core/readers_test.go`. -/
def uriPrefixTable : List (Nat × GoStr) :=
  [ (0x01, "http://www.".data)
  , (0x02, "https://www.".data)
  , (0x03, "http://".data)
  , (0x04, "https://".data)
  , (0x05, "tel:".data)
  , (0x06, "mailto:".data)
  , (0x07, "ftp://anonymous:anonymous@".data)
  , (0x08, "ftp://ftp.".data)
  , (0x09, "ftps://".data)
  , (0x0A, "sftp://".data)
  , (0x0B, "smb://".data)
  , (0x0C, "nfs://".data)
  , (0x0D, "ftp://".data)
  , (0x0E, "dav://".data)
  , (0x0F, "news:".data)
  , (0x10, "telnet://".data)
  , (0x11, "imap:".data)
  , (0x12, "rtsp://".data)
  , (0x13, "urn:".data)
  , (0x14, "pop:".data)
  , (0x15, "sip:".data)
  , (0x16, "sips:".data)
  , (0x17, "tftp:".data)
  , (0x18, "btspp://".data)
  , (0x19, "btl2cap://".data)
  , (0x1A, "btgoep://".data)
  , (0x1B, "tcpobex://".data)
  , (0x1C, "irdaobex://".data)
  , (0x1D, "file://".data)
  , (0x1E, "urn:epc:id:".data)
  , (0x1F, "urn:epc:tag:".data)
  , (0x20, "urn:epc:pat:".data)
  , (0x21, "urn:epc:raw:".data)
  , (0x22, "urn:epc:".data)
  , (0x23, "urn:nfc:".data) ]

/-- Linear lookup in an association list keyed by the prefix code. -/
def lookupPrefix : List (Nat × GoStr) → Nat → GoStr
  | [], _ => []
  | (c, p) :: rest, code => if code = c then p else lookupPrefix rest code

/-- Modelled from the spec: `getURIPrefix` (implementation absent from the
sources).  Decodes a prefix code to its table entry; any code outside the
table — including all of `0x24..0xFF` — yields the empty string, exactly as
`TestGetURIPrefix` asserts for `0x24`, `0x50` and `0xFF`. -/
def getURIPrefix (code : Nat) : GoStr :=
  lookupPrefix uriPrefixTable code

/-- Modelled from the spec: the ordered list of prefixes that
`findURIPrefix` actually checks.  The implementation is absent from the
sources; `TestFindURIPrefix` pins this order ("the prefix matching order in
findURIPrefix checks https:// before https://www.") and shows that
prefixes such as `ftp://` (code `0x0D`) are never selected by the encoder. -/
def uriCheckOrder : List (Nat × GoStr) :=
  [ (0x04, "https://".data)
  , (0x03, "http://".data)
  , (0x05, "tel:".data)
  , (0x06, "mailto:".data) ]

/-- First-match scan over a prefix list; no match yields code `0x00` with
the whole URI as remainder. -/
def findURIPrefixGo : List (Nat × GoStr) → GoStr → Nat × GoStr
  | [], u => (0x00, u)
  | (c, p) :: rest, u =>
    if p.isPrefixOf u then (c, u.drop p.length) else findURIPrefixGo rest u

/-- Modelled from the spec: `findURIPrefix` (implementation absent from the
sources).  Splits a URI at the first — not the longest — matching prefix of
`uriCheckOrder`, per `TestFindURIPrefix`. -/
def findURIPrefix (u : GoStr) : Nat × GoStr :=
  findURIPrefixGo uriCheckOrder u

/-! ## Reader enumeration (`internal/core/readers.go`) -/

/-- Go `strings.ToLower`, restricted to the ASCII range exercised by
reader names. -/
def goToLower (s : GoStr) : GoStr := s.map Char.toLower

/-- Index of the first occurrence of `sub` in the string scanned so far,
`-1` when absent; `i` is the index of the scan position (`findIndex` helper
of the core package, pinned by `TestFindIndex`). -/
def findIndexFrom (sub : GoStr) : GoStr → Nat → Int
  | [], i => if sub.isEmpty then (i : Int) else -1
  | c :: t, i => if sub.isPrefixOf (c :: t) then (i : Int) else findIndexFrom sub t (i + 1)

/-- `findIndex` helper of the core package (`TestFindIndex`): first index of
`sub` in `s`, `-1` when `sub` does not occur. -/
def findIndex (s sub : GoStr) : Int := findIndexFrom sub s 0

/-- `contains` helper of the core package / Go `strings.Contains`: `sub`
occurs as a contiguous substring of `s` (pinned by `TestContains`). -/
def goContains (s sub : GoStr) : Bool := 0 ≤ findIndex s sub

/-- A reader entry (`Reader` struct in `internal/core/readers.go`). -/
structure ReaderR where
  id : GoStr
  name : GoStr
  type : GoStr
deriving DecidableEq

/-- `detectReaderType` from `internal/core/readers.go`: a reader whose
lowercased name contains `" sam"` or `"sam "` is a SAM slot; everything
else is classified `picc`. -/
def detectReaderType (name : GoStr) : GoStr :=
  let nameLower := goToLower name
  if goContains nameLower " sam".data || goContains nameLower "sam ".data then
    "sam".data
  else if goContains nameLower "picc".data then
    "picc".data
  else
    "picc".data

/-- The pure core of `ListReaders` from `internal/core/readers.go`: given
the PC/SC reader-name list, drop SAM slots and assign ordinal ids
`reader-<i>` in kept order. -/
def listReadersFromAux : List GoStr → Nat → List ReaderR
  | [], _ => []
  | n :: rest, idx =>
    let t := detectReaderType n
    if t = "sam".data then
      listReadersFromAux rest idx
    else
      ⟨"reader-".data ++ (Nat.repr idx).data, n, t⟩ :: listReadersFromAux rest (idx + 1)

/-- Enumeration over a reader-name list, starting ids at 0. -/
def listReadersFrom (names : List GoStr) : List ReaderR :=
  listReadersFromAux names 0

/-! ## Theorems about the URI codec (claims C1 and C2) -/

/-- A matched boolean prefix concatenated with the dropped remainder
reproduces the original list. -/
theorem prefix_append_drop {p u : GoStr} (h : p.isPrefixOf u) :
    p ++ u.drop p.length = u := by
  have hp : p <+: u := List.isPrefixOf_iff_prefix.mp h
  have ht : p = u.take p.length := List.prefix_iff_eq_take.mp hp
  calc p ++ u.drop p.length = u.take p.length ++ u.drop p.length := by rw [← ht]
    _ = u := List.take_append_drop _ _

theorem getURIPrefix_zero : getURIPrefix 0 = [] := rfl

/-- First-match scan characterized via `List.find?`. -/
theorem findURIPrefixGo_eq_find (l : List (Nat × GoStr)) (u : GoStr) :
    findURIPrefixGo l u =
      (match l.find? (fun cp => cp.2.isPrefixOf u) with
       | some cp => (cp.1, u.drop cp.2.length)
       | none => (0x00, u)) := by
  induction l with
  | nil => rfl
  | cons hd tl ih =>
    obtain ⟨c, p⟩ := hd
    by_cases hp : p.isPrefixOf u
    · simp [findURIPrefixGo, hp, List.find?]
    · simp only [findURIPrefixGo, hp, if_false, List.find?]
      simpa [hp] using ih

/-- Soundness of the split: the selected code's table prefix really is a
prefix of the input and the remainder is the input with it removed. -/
theorem findURIPrefixGo_sound (l : List (Nat × GoStr)) (u : GoStr)
    (hl : ∀ cp ∈ l, getURIPrefix cp.1 = cp.2) :
    (getURIPrefix (findURIPrefixGo l u).1).isPrefixOf u = true ∧
      (findURIPrefixGo l u).2 = u.drop (getURIPrefix (findURIPrefixGo l u).1).length := by
  induction l with
  | nil =>
    simp [findURIPrefixGo, getURIPrefix_zero, List.isPrefixOf_iff_prefix]
  | cons hd tl ih =>
    obtain ⟨c, p⟩ := hd
    have hc : getURIPrefix c = p := hl (c, p) (List.mem_cons_self _ _)
    by_cases hp : p.isPrefixOf u
    · simp [findURIPrefixGo, hp, hc]
    · simp only [findURIPrefixGo, hp, if_false]
      exact ih fun cp h => hl cp (List.mem_cons_of_mem _ h)

/-- All codes in the check order decode back to the checked prefix. -/
theorem uriCheckOrder_consistent :
    ∀ cp ∈ uriCheckOrder, getURIPrefix cp.1 = cp.2 := by decide

/-- Roundtrip of the prefix split against the decode table. -/
theorem findURIPrefix_roundtrip (u : GoStr) :
    getURIPrefix (findURIPrefix u).1 ++ (findURIPrefix u).2 = u := by
  obtain ⟨h1, h2⟩ := findURIPrefixGo_sound uriCheckOrder u uriCheckOrder_consistent
  rw [findURIPrefix, h2]
  exact prefix_append_drop h1

/-- Lookup on a table whose keys are all below a bound misses any code at
or above it. -/
theorem lookupPrefix_eq_nil (l : List (Nat × GoStr)) (code : Nat)
    (h : ∀ cp ∈ l, cp.1 < 36) (hc : 36 ≤ code) : lookupPrefix l code = [] := by
  induction l with
  | nil => rfl
  | cons hd tl ih =>
    obtain ⟨c, p⟩ := hd
    have hlt : c < 36 := h (c, p) (List.mem_cons_self _ _)
    rw [lookupPrefix, if_neg (by omega)]
    exact ih fun cp hm => h cp (List.mem_cons_of_mem _ hm)

/-- Every key of the prefix table is below `0x24`. -/
theorem uriPrefixTable_keys_lt : ∀ cp ∈ uriPrefixTable, cp.1 < 36 := by decide

/-- Any code at or above `0x24` is outside the prefix table. -/
theorem getURIPrefix_unknown (code : Nat) (h : 0x24 ≤ code) :
    getURIPrefix code = [] :=
  lookupPrefix_eq_nil uriPrefixTable code uriPrefixTable_keys_lt h

/-- C1 is refuted by the code: on `"https://www.example.com"` the split
selects `https://` (code `0x04`, the first match in check order), not the
longer table prefix `https://www.` (code `0x02`), even though the latter is
a strictly longer matching entry of the prefix table. -/
theorem findURIPrefix_not_longest :
    findURIPrefix "https://www.example.com".data = (0x04, "www.example.com".data) ∧
    findURIPrefix "https://www.example.com".data ≠ (0x02, "example.com".data) ∧
    (0x02, "https://www.".data) ∈ uriPrefixTable ∧
    ("https://www.".data).isPrefixOf "https://www.example.com".data = true ∧
    ("https://".data).length < ("https://www.".data).length := by
  refine ⟨by decide, by decide, by decide, by decide, by decide⟩

/-- C1 (amended): `findURIPrefix` checks the fixed prefix list `https://`,
`http://`, `tel:`, `mailto:` in order and splits at the first — not the
longest — match, returning that code and the remainder after the prefix
(so `"https://www.example.com"` yields `(0x04, "www.example.com")`); if no
checked prefix matches it returns `(0x00, u)`; in all cases the selected
prefix is a real prefix of `u` and the remainder is `u` with it removed. -/
theorem findURIPrefix_first_match :
    (∀ u : GoStr,
      findURIPrefix u =
        (match uriCheckOrder.find? (fun cp => cp.2.isPrefixOf u) with
         | some cp => (cp.1, u.drop cp.2.length)
         | none => (0x00, u))) ∧
    (∀ u : GoStr,
      (getURIPrefix (findURIPrefix u).1).isPrefixOf u = true ∧
        (findURIPrefix u).2 = u.drop (getURIPrefix (findURIPrefix u).1).length) ∧
    findURIPrefix "https://www.example.com".data = (0x04, "www.example.com".data) := by
  refine ⟨fun u => findURIPrefixGo_eq_find uriCheckOrder u,
    fun u => findURIPrefixGo_sound uriCheckOrder u uriCheckOrder_consistent,
    by decide⟩

/-- C2: for every URI `u`, the prefix selected by `findURIPrefix`
concatenated with the remainder reproduces `u`; and every code outside the
assigned range `0x00..0x23` decodes to the empty prefix, so decoding with
an unknown code yields the bare remainder. -/
theorem uriPrefix_roundtrip_and_unknown_code :
    (∀ u : GoStr, getURIPrefix (findURIPrefix u).1 ++ (findURIPrefix u).2 = u) ∧
    (∀ code : Nat, 0x24 ≤ code → getURIPrefix code = []) ∧
    (∀ (code : Nat) (rest : GoStr), 0x24 ≤ code → getURIPrefix code ++ rest = rest) := by
  refine ⟨findURIPrefix_roundtrip, getURIPrefix_unknown, fun code rest h => ?_⟩
  rw [getURIPrefix_unknown code h, List.nil_append]

/-- Witness for C2 at concrete inputs: the roundtrip on
`"https://www.example.com"` and the unknown codes `0x24`, `0x50`, `0xFF`. -/
theorem uriPrefix_roundtrip_and_unknown_code_witness :
    getURIPrefix (findURIPrefix "https://www.example.com".data).1 ++
        (findURIPrefix "https://www.example.com".data).2 = "https://www.example.com".data ∧
    getURIPrefix 0x24 = [] ∧ getURIPrefix 0x50 = [] ∧
    getURIPrefix 0xFF ++ "example.com".data = "example.com".data :=
  ⟨uriPrefix_roundtrip_and_unknown_code.1 _,
   uriPrefix_roundtrip_and_unknown_code.2.1 0x24 (by norm_num),
   uriPrefix_roundtrip_and_unknown_code.2.1 0x50 (by norm_num),
   uriPrefix_roundtrip_and_unknown_code.2.2 0xFF "example.com".data (by norm_num)⟩

/-! ## Card identification (claims C3, C4)

The identification code (`GetCardUID` and its helpers) is absent from the
sources; `readers_test.go` (`mockCards`, `TestContains`, `TestFindIndex`,
`TestMIFAREvsNTAGDistinction`) and `integration_test.go`
(`TestIntegration_CardSizes`) pin its observable behavior. -/

/-- Lowercase hex digit for a nibble. -/
def hexDigit (n : Nat) : Char :=
  if n < 10 then Char.ofNat (48 + n) else Char.ofNat (87 + n)

/-- Two lowercase hex characters of a byte. -/
def byteToHex (b : Nat) : GoStr := [hexDigit (b / 16 % 16), hexDigit (b % 16)]

/-- Lowercase hex encoding of a byte sequence (Go `hex.EncodeToString`). -/
def hexEncode (bs : List Nat) : GoStr := (bs.map byteToHex).flatten

/-- A card snapshot (`Card` struct of the core package, fields pinned by
`TestCardStruct` and `TestIntegration_ReadCard`). -/
structure Card where
  uid : GoStr
  atr : GoStr
  type : GoStr
  size : Nat
  writable : Bool
  data : GoStr := []
  dataType : GoStr := []
  url : GoStr := []
deriving DecidableEq

/-- Modelled from the spec: NTAG variant refinement from the capability
container's size indicator (`0x12`/`0x3E`/`0x6D`); the byte sizes are the
ones the repository's own tests assert (`TestIntegration_CardSizes`:
NTAG213 → 180, NTAG215 → 504, NTAG216 → 888).  An indicator outside the
three maps to the closest smaller capacity, modelled as the smallest
variant. -/
def ntagVariant (cc : List Nat) : GoStr × Nat :=
  if cc.get? 2 = some 0x12 then ("NTAG213".data, 180)
  else if cc.get? 2 = some 0x3E then ("NTAG215".data, 504)
  else if cc.get? 2 = some 0x6D then ("NTAG216".data, 888)
  else ("NTAG213".data, 180)

/-- Modelled from the spec: card identification (spec section 4.1; the
implementation file is absent from the sources).  The UID is the hex of the
GET-DATA response with the trailing status word removed; the family is
discriminated by scanning the ATR hex string for `03060b` (ISO 15693) or
`03060300` (ISO 14443), the latter refined by ATR byte 14 (hex characters
28–29): `01` → MIFARE Classic, `02` → MIFARE Classic 4K, `03` → NTAG with
the variant taken from the capability container.  Sizes for MIFARE Classic
(1024) and ISO 15693 (1024) are the ones asserted by `mockCards` in
`readers_test.go`. -/
def identifyCard (atr : GoStr) (uidResp : List Nat) (cc : List Nat) : Card :=
  let uid := hexEncode (uidResp.take (uidResp.length - 2))
  if goContains atr "03060b".data then
    { uid := uid, atr := atr, type := "ISO 15693".data, size := 1024, writable := true }
  else if goContains atr "03060300".data then
    let b14 := (atr.drop 28).take 2
    if b14 = "01".data then
      { uid := uid, atr := atr, type := "MIFARE Classic".data, size := 1024, writable := true }
    else if b14 = "02".data then
      { uid := uid, atr := atr, type := "MIFARE Classic 4K".data, size := 4096, writable := true }
    else if b14 = "03".data then
      let tv := ntagVariant cc
      { uid := uid, atr := atr, type := tv.1, size := tv.2, writable := true }
    else
      { uid := uid, atr := atr, type := "Unknown".data, size := 0, writable := false }
  else
    { uid := uid, atr := atr, type := "Unknown".data, size := 0, writable := false }

/-- Mock card data captured from real hardware (`MockCardData` and
`mockCards` in `internal/core/readers_test.go`). -/
structure MockCardData where
  readerName : GoStr
  uid : GoStr
  atr : GoStr
  type : GoStr
  size : Nat
  writable : Bool
  data : GoStr := []
  dataType : GoStr := []
deriving DecidableEq

/-- The `mockCards` table of `internal/core/readers_test.go`. -/
def mockCards : List MockCardData :=
  [ { readerName := "ACS ACR122U PICC Interface".data
    , uid := "932bae0e".data
    , atr := "3b8f8001804f0ca000000306030001000000006a".data
    , type := "MIFARE Classic".data
    , size := 1024
    , writable := true }
  , { readerName := "ACS ACR1552 1S CL Reader PICC".data
    , uid := "80391566080104e0".data
    , atr := "3b8f8001804f0ca0000003060b00140000000077".data
    , type := "ISO 15693".data
    , size := 1024
    , writable := true
    , data := "eyoooo".data
    , dataType := "text".data }
  , { readerName := "ACS ACR1252 Dual Reader PICC".data
    , uid := "0442488a837280".data
    , atr := "3b8f8001804f0ca0000003060300030000000068".data
    , type := "NTAG213".data
    , size := 180
    , writable := true } ]

/-- The `expectedSizes` table of `TestIntegration_CardSizes` in
`internal/core/integration_test.go`. -/
def expectedSizes : List (GoStr × Nat) :=
  [ ("NTAG213".data, 180)
  , ("NTAG215".data, 504)
  , ("NTAG216".data, 888)
  , ("MIFARE Classic".data, 1024) ]

/-- ATR of end-to-end scenario 1 (NTAG213). -/
def scenario1ATR : GoStr := "3b8f8001804f0ca0000003060300030000000068".data

/-- GET-DATA response of scenario 1: UID `04 42 48 8A 83 72 80` plus the
status word `90 00`. -/
def scenario1UIDResp : List Nat := [0x04, 0x42, 0x48, 0x8A, 0x83, 0x72, 0x80, 0x90, 0x00]

/-- Capability container of scenario 1 read at page 3. -/
def scenario1CC : List Nat := [0xE1, 0x10, 0x12, 0x00]

/-! ## Theorems for claims C3 and C4 -/

/-- C3 is refuted by the code: on the scenario-1 inputs identification
yields capacity 180, the size the repository's tests demand for NTAG213
(`TestIntegration_CardSizes` and `mockCards`), not the 144 the claim
states. -/
theorem ntag213_capacity_not_144 :
    (identifyCard scenario1ATR scenario1UIDResp scenario1CC).size = 180 ∧
    (identifyCard scenario1ATR scenario1UIDResp scenario1CC).size ≠ 144 ∧
    List.lookup "NTAG213".data expectedSizes = some 180 ∧
    (mockCards.get? 2).map MockCardData.size = some 180 := by
  refine ⟨by decide, by decide, by decide, by decide⟩

/-- C3 (amended): identifying the page tag of end-to-end scenario 1 (ATR
`3b8f...0068`, GET-DATA response `04 42 48 8A 83 72 80 90 00`, capability
container `E1 10 12 00`) produces a card with uid `0442488a837280`, type
`NTAG213`, `capacity_bytes = 180` (the total tag memory the repository's
tests assert; 144 is the usable NDEF area, which the code does not report)
and `writable = true`, matching the repository's `mockCards` entry for
that tag. -/
theorem scenario1_identify_card :
    identifyCard scenario1ATR scenario1UIDResp scenario1CC =
      { uid := "0442488a837280".data, atr := scenario1ATR
      , type := "NTAG213".data, size := 180, writable := true } ∧
    mockCards.get? 2 = some
      { readerName := "ACS ACR1252 Dual Reader PICC".data
      , uid := "0442488a837280".data, atr := scenario1ATR
      , type := "NTAG213".data, size := 180, writable := true } := by
  refine ⟨by decide, by decide⟩

/-- Every reader name is classified either `sam` or `picc`. -/
theorem detectReaderType_cases (name : GoStr) :
    detectReaderType name = "sam".data ∨ detectReaderType name = "picc".data := by
  simp only [detectReaderType]
  split_ifs <;> simp

/-- The enumeration keeps exactly the names not classified `sam`, in input
order. -/
theorem listReadersFromAux_names (names : List GoStr) (idx : Nat) :
    (listReadersFromAux names idx).map ReaderR.name =
      names.filter (fun n => !(detectReaderType n == "sam".data)) := by
  induction names generalizing idx with
  | nil => rfl
  | cons n rest ih =>
    by_cases h : detectReaderType n = "sam".data
    · have hb : (!(detectReaderType n == "sam".data)) = false := by simp [h]
      simp [listReadersFromAux, h, List.filter_cons, hb, ih]
    · have hb : (!(detectReaderType n == "sam".data)) = true := by simp [h]
      simp [listReadersFromAux, h, List.filter_cons, hb, ih]

/-- Every reader kept by the enumeration is classified `picc`. -/
theorem listReadersFromAux_picc (names : List GoStr) (idx : Nat) :
    ∀ r ∈ listReadersFromAux names idx, r.type = "picc".data := by
  induction names generalizing idx with
  | nil => intro r hr; cases hr
  | cons n rest ih =>
    intro r hr
    by_cases h : detectReaderType n = "sam".data
    · rw [listReadersFromAux, if_pos (by simpa [detectReaderType] using h)] at hr
      exact ih _ r hr
    · rw [listReadersFromAux, if_neg (by simpa [detectReaderType] using h)] at hr
      rcases List.mem_cons.mp hr with rfl | hmem
      · rcases detectReaderType_cases n with hc | hc
        · exact absurd hc h
        · exact hc
      · exact ih _ r hmem

/-- C4 is refuted by the code: the bare name `"SAM"` is not excluded — the
substring checks `" sam"` / `"sam "` both fail on it, so the slot is kept
and classified `picc`. -/
theorem detectReaderType_bare_sam :
    detectReaderType "SAM".data = "picc".data ∧
    detectReaderType "SAM".data ≠ "sam".data ∧
    listReadersFrom ["SAM".data] =
      [{ id := "reader-0".data, name := "SAM".data, type := "picc".data }] := by
  refine ⟨by decide, by decide, by decide⟩

/-- C4 (amended): a reader slot is excluded from enumeration exactly when
its lowercased name contains the substring `" sam"` or `"sam "` (the token
`sam` with an adjacent space, not a whole-word match): so
`"ACS ACR1552 1S CL Reader SAM 0"` is excluded while the bare `"SAM"`,
`"SamSung Reader"` and `"MySAMReader"` are all kept; every retained slot
is classified `picc`. -/
theorem detectReaderType_substring_rule :
    (∀ name : GoStr, detectReaderType name = "sam".data ↔
      (goContains (goToLower name) " sam".data
        || goContains (goToLower name) "sam ".data) = true) ∧
    (∀ (names : List GoStr) (idx : Nat),
      (listReadersFromAux names idx).map ReaderR.name =
        names.filter (fun n => !(detectReaderType n == "sam".data))) ∧
    (∀ (names : List GoStr) (idx : Nat),
      ∀ r ∈ listReadersFromAux names idx, r.type = "picc".data) ∧
    detectReaderType "ACS ACR1552 1S CL Reader SAM 0".data = "sam".data ∧
    detectReaderType "SAM".data = "picc".data ∧
    detectReaderType "SamSung Reader".data = "picc".data ∧
    detectReaderType "MySAMReader".data = "picc".data := by
  refine ⟨fun name => ?_, listReadersFromAux_names, listReadersFromAux_picc,
    by decide, by decide, by decide, by decide⟩
  cases hx : goContains (goToLower name) " sam".data
      || goContains (goToLower name) "sam ".data with
  | true => simp [detectReaderType, hx]
  | false =>
    simp only [detectReaderType, hx, Bool.false_eq_true, if_false]
    constructor
    · intro hc
      split_ifs at hc <;> exact absurd hc (by decide)
    · intro hc
      cases hc

/-! ## NDEF record encoding (claim C5) -/

/-- Big-endian 4-byte encoding of a length (each byte truncated as Go's
byte casts do). -/
def beBytes4 (n : Nat) : List Nat :=
  [n / 2 ^ 24 % 256, n / 2 ^ 16 % 256, n / 2 ^ 8 % 256, n % 256]

/-- Big-endian value of a 4-byte list, the recomposition used by
`TestCreateNDEFRecordRaw_LongPayload`. -/
def beVal4 : List Nat → Nat
  | [a, b, c, d] => ((a * 256 + b) * 256 + c) * 256 + d
  | _ => 0

/-- Modelled from the spec: `createNDEFRecordRaw` (implementation absent
from the sources; layout pinned by `TestCreateNDEFRecordRaw`,
`TestNDEFRecord_TypeLengthPayloadLength` and
`TestCreateNDEFRecordRaw_LongPayload`).  Header byte = MB `0x80` | ME
`0x40` | SR `0x10` | TNF, with SR set iff the payload is shorter than 256
bytes; then the type length, the payload length (one byte in short form,
four big-endian bytes otherwise), the type, and the payload. -/
def createNDEFRecordRaw (tnf : Nat) (ty payload : List Nat) (mb me : Bool) : List Nat :=
  let sr := payload.length < 256
  let header := (if mb then 0x80 else 0) ||| (if me then 0x40 else 0) |||
    (if sr then 0x10 else 0) ||| tnf
  header :: ty.length % 256 ::
    ((if sr then [payload.length] else beBytes4 payload.length) ++ ty ++ payload)

/-- Recomposing the four big-endian bytes recovers the length modulo
`2 ^ 32`. -/
theorem beVal4_beBytes4 (n : Nat) : beVal4 (beBytes4 n) = n % 2 ^ 32 := by
  simp only [beVal4, beBytes4]
  omega

/-- The NDEF record header byte: MB (`0x80`), ME (`0x40`), SR (`0x10`,
short-record) and the TNF OR-ed together. -/
def recordHeader (tnf plen : Nat) (mb me : Bool) : Nat :=
  (if mb then 0x80 else 0) ||| (if me then 0x40 else 0) |||
    (if plen < 256 then 0x10 else 0) ||| tnf

/-- C5: every record emitted by `createNDEFRecordRaw` starts with the
header byte OR-ing MB (`0x80`) when `mb`, ME (`0x40`) when `me`, SR
(`0x10`) set exactly when the payload is shorter than 256 bytes, and the
TNF; after the type-length byte the payload length occupies one byte in
the short form and four big-endian bytes (decoding back to the length)
otherwise, followed by the type and the payload. -/
theorem createNDEFRecordRaw_format (tnf : Nat) (ty payload : List Nat)
    (mb me : Bool) (htnf : tnf < 8) :
    createNDEFRecordRaw tnf ty payload mb me =
        recordHeader tnf payload.length mb me :: ty.length % 256 ::
          ((if payload.length < 256 then [payload.length] else beBytes4 payload.length)
            ++ ty ++ payload) ∧
      (recordHeader tnf payload.length mb me).testBit 4 =
        decide (payload.length < 256) ∧
      (recordHeader tnf payload.length mb me).testBit 7 = mb ∧
      (recordHeader tnf payload.length mb me).testBit 6 = me ∧
      (256 ≤ payload.length →
        (beBytes4 payload.length).length = 4 ∧
          beVal4 (beBytes4 payload.length) = payload.length % 2 ^ 32) := by
  have h4 : tnf.testBit 4 = false := Nat.testBit_lt_two_pow (by omega)
  have h6 : tnf.testBit 6 = false := Nat.testBit_lt_two_pow (by omega)
  have h7 : tnf.testBit 7 = false := Nat.testBit_lt_two_pow (by omega)
  refine ⟨rfl, ?_, ?_, ?_, fun _ => ⟨rfl, beVal4_beBytes4 _⟩⟩ <;>
    · simp only [recordHeader]
      cases mb <;> cases me <;> by_cases hl : payload.length < 256 <;>
        simp [hl, Nat.testBit_lor, h4, h6, h7] <;> decide

/-- Witness for C5: the short record of `TestCreateNDEFRecordRaw` (header
`0xD1`) evaluated concretely, and the long-payload branch applied at a
300-byte payload. -/
theorem createNDEFRecordRaw_format_witness :
    beVal4 (beBytes4 (List.replicate 300 (0x41 : Nat)).length) =
      (List.replicate 300 (0x41 : Nat)).length % 2 ^ 32 ∧
    createNDEFRecordRaw 1 [0x54] [0x74, 0x65, 0x73, 0x74] true true =
      [0xD1, 1, 4, 0x54, 0x74, 0x65, 0x73, 0x74] := by
  have h := (createNDEFRecordRaw_format 2 [0x61] (List.replicate 300 0x41) true true
    (by norm_num)).2.2.2.2 (by rw [List.length_replicate]; norm_num)
  exact ⟨h.2, by decide⟩

/-! ## Log ring (`internal/logging/logging.go`; claims C8 and C10) -/

/-- A log entry (`Entry` struct); the timestamp is carried as an opaque
number and the data map is omitted. -/
structure LogEntry where
  ts : Nat
  level : Nat
  category : GoStr
  message : GoStr
deriving DecidableEq

/-- The zero value of `Entry` filling a fresh ring. -/
def zeroEntry : LogEntry := ⟨0, 0, [], []⟩

/-- Logger state (`Logger` struct): ring slice, capacity, next write
position, entry count, minimum level. -/
structure LoggerState where
  entries : List LogEntry
  maxSize : Nat
  head : Nat
  count : Nat
  minLevel : Nat
deriving DecidableEq

/-- The logger built by `Init`: `maxEntries` zero slots. -/
def mkLogger (maxEntries minLevel : Nat) : LoggerState :=
  { entries := List.replicate maxEntries zeroEntry
  , maxSize := maxEntries, head := 0, count := 0, minLevel := minLevel }

/-- `Logger.Log`: discard below the minimum level; otherwise write at the
head, advance it modulo the capacity and saturate the count. -/
def logLog (s : LoggerState) (e : LogEntry) : LoggerState :=
  if e.level < s.minLevel then s
  else
    { s with
      entries := s.entries.set s.head e
      head := (s.head + 1) % s.maxSize
      count := if s.count < s.maxSize then s.count + 1 else s.count }

/-- Folding a sequence of `Log` calls over a logger. -/
def applyLog (s : LoggerState) (es : List LogEntry) : LoggerState :=
  es.foldl logLog s

/-- Ring slot holding the `i`-th most recent entry
(`(head - 1 - i + maxSize) % maxSize` in the source, written without
negative intermediate values). -/
def slot (head m i : Nat) : Nat := (head + m - 1 - i) % m

/-- The per-entry filter of `GetEntries`: an entry is skipped when below
the requested level or outside the requested category. -/
def entryPasses (ml : Option Nat) (cat : Option GoStr) (e : LogEntry) : Bool :=
  (match ml with
   | some l => !decide (e.level < l)
   | none => true) &&
  (match cat with
   | some c => decide (e.category = c)
   | none => true)

/-- The collection loop of `GetEntries`: `rem` iterations remain, `i` is
the loop counter and `taken` the number of entries appended so far; after
an append the loop breaks once a positive `limit` is reached. -/
def getEntriesGo (s : LoggerState) (limit : Int) (ml : Option Nat)
    (cat : Option GoStr) : Nat → Nat → Nat → List LogEntry
  | _, 0, _ => []
  | i, rem + 1, taken =>
    let e := s.entries.getD (slot s.head s.maxSize i) zeroEntry
    if entryPasses ml cat e then
      if 0 < limit ∧ limit ≤ (taken : Int) + 1 then [e]
      else e :: getEntriesGo s limit ml cat (i + 1) rem (taken + 1)
    else getEntriesGo s limit ml cat (i + 1) rem taken

/-- `Logger.GetEntries`: newest first, filtered, truncated at a positive
`limit`. -/
def getEntries (s : LoggerState) (limit : Int) (ml : Option Nat)
    (cat : Option GoStr) : List LogEntry :=
  if s.count = 0 then [] else getEntriesGo s limit ml cat 0 s.count 0

/-- The retained entries, newest first, as the loop reads them. -/
def newestFirst (s : LoggerState) : List LogEntry :=
  (List.range s.count).map fun i => s.entries.getD (slot s.head s.maxSize i) zeroEntry

/-! ### Ring-slot arithmetic -/

theorem slot_lt {m : Nat} (hm : 0 < m) (head i : Nat) : slot head m i < m :=
  Nat.mod_lt _ hm

/-- After advancing the head, slot 0 is the previous head. -/
theorem slot_zero_advance {m head : Nat} (hh : head < m) :
    slot ((head + 1) % m) m 0 = head := by
  unfold slot
  by_cases hc : head + 1 < m
  · rw [Nat.mod_eq_of_lt hc]
    have h1 : head + 1 + m - 1 - 0 = head + m := by omega
    rw [h1, Nat.add_mod_right]
    exact Nat.mod_eq_of_lt hh
  · have he : head + 1 = m := by omega
    rw [he, Nat.mod_self]
    have h1 : 0 + m - 1 - 0 = m - 1 := by omega
    rw [h1, Nat.mod_eq_of_lt (show m - 1 < m by omega)]
    omega

/-- After advancing the head, slot `i + 1` is the previous slot `i`. -/
theorem slot_succ_advance {m head i : Nat} (hh : head < m) (hi : i + 1 < m) :
    slot ((head + 1) % m) m (i + 1) = slot head m i := by
  unfold slot
  by_cases hc : head + 1 < m
  · rw [Nat.mod_eq_of_lt hc]
    congr 1
    omega
  · have he : head + 1 = m := by omega
    rw [he, Nat.mod_self]
    have h1 : 0 + m - 1 - (i + 1) = m - 2 - i := by omega
    have h2 : head + m - 1 - i = m + (m - 2 - i) := by omega
    rw [h1, h2, Nat.add_mod_left]

/-- Non-top slots differ from the write head. -/
theorem slot_ne_head {m head i : Nat} (hh : head < m) (hi : i < m - 1) :
    slot head m i ≠ head := by
  unfold slot
  have hd : head + m - 1 - i = head + (m - 1 - i) := by omega
  rw [hd]
  by_cases hc : head + (m - 1 - i) < m
  · rw [Nat.mod_eq_of_lt hc]; omega
  · rw [Nat.mod_eq_sub_mod (by omega), Nat.mod_eq_of_lt (by omega)]; omega

/-! ### The ring invariant -/

/-- State reached from a fresh logger by the accepted appends `acc` (in
arrival order): capacity and level are fixed, the count saturates at the
capacity, the head wraps, and slot `i` (newest first) holds the `i`-th
most recent accepted entry. -/
structure RingInv (m lvl : Nat) (acc : List LogEntry) (s : LoggerState) : Prop where
  maxSize_eq : s.maxSize = m
  minLevel_eq : s.minLevel = lvl
  len_eq : s.entries.length = m
  count_eq : s.count = min acc.length m
  head_eq : s.head = acc.length % m
  slots : ∀ i < s.count,
    s.entries.getD (slot s.head m i) zeroEntry = acc.reverse.getD i zeroEntry

theorem ringInv_mk (m lvl : Nat) : RingInv m lvl [] (mkLogger m lvl) := by
  refine ⟨rfl, rfl, ?_, ?_, ?_, ?_⟩
  · simp [mkLogger]
  · simp [mkLogger]
  · simp [mkLogger]
  · intro i hi; simp [mkLogger] at hi

/-- `Log` below the minimum level is a no-op. -/
theorem logLog_skip {s : LoggerState} {e : LogEntry} (h : e.level < s.minLevel) :
    logLog s e = s := by
  simp [logLog, h]

/-- `Log` of an accepted entry extends the accepted history. -/
theorem ringInv_log_accept {m lvl : Nat} {acc : List LogEntry} {s : LoggerState}
    (hm : 0 < m) (inv : RingInv m lvl acc s) (e : LogEntry)
    (he : ¬ e.level < lvl) : RingInv m lvl (acc ++ [e]) (logLog s e) := by
  have hcond : ¬ e.level < s.minLevel := by rw [inv.minLevel_eq]; exact he
  have hh : s.head < m := by
    rw [inv.head_eq]; exact Nat.mod_lt _ hm
  have hc2 : (if s.count < s.maxSize then s.count + 1 else s.count) =
      min (acc.length + 1) m := by
    rw [inv.maxSize_eq, inv.count_eq]; split_ifs <;> omega
  have hs' : logLog s e =
      { s with
        entries := s.entries.set s.head e
        head := (s.head + 1) % s.maxSize
        count := if s.count < s.maxSize then s.count + 1 else s.count } := by
    rw [logLog, if_neg hcond]
  rw [hs']
  refine ⟨inv.maxSize_eq, inv.minLevel_eq, by simpa using inv.len_eq, ?_, ?_, ?_⟩
  · show (if s.count < s.maxSize then s.count + 1 else s.count) = min (acc ++ [e]).length m
    rw [hc2]
    simp
  · show (s.head + 1) % s.maxSize = (acc ++ [e]).length % m
    rw [inv.maxSize_eq, inv.head_eq]
    simp only [List.length_append, List.length_singleton]
    exact Nat.mod_add_mod _ _ _
  · intro i hi
    have hi' : i < min (acc.length + 1) m := by
      rw [← hc2]
      exact hi
    show (s.entries.set s.head e).getD (slot ((s.head + 1) % s.maxSize) m i) zeroEntry =
      (acc ++ [e]).reverse.getD i zeroEntry
    rw [inv.maxSize_eq]
    have hrev : (acc ++ [e]).reverse = e :: acc.reverse := by simp
    rw [hrev]
    match i with
    | 0 =>
      rw [slot_zero_advance hh]
      have hset : (s.entries.set s.head e).getD s.head zeroEntry = e := by
        simp [List.getD, List.getElem?_set_self, inv.len_eq ▸ hh]
      rw [hset]
      rfl
    | j + 1 =>
      have hj1 : j + 1 < m := by omega
      rw [slot_succ_advance hh hj1]
      have hne : slot s.head m j ≠ s.head := slot_ne_head hh (by omega)
      have hset : (s.entries.set s.head e).getD (slot s.head m j) zeroEntry =
          s.entries.getD (slot s.head m j) zeroEntry := by
        simp [List.getD, List.getElem?_set_ne (Ne.symm hne)]
      rw [hset]
      have hjc : j < s.count := by
        rw [inv.count_eq]; omega
      have := inv.slots j hjc
      rw [this]
      rfl

/-- Folding `Log` preserves the invariant, extending the accepted history
by the level-filtered suffix. -/
theorem ringInv_applyLog {m lvl : Nat} (hm : 0 < m) :
    ∀ (es acc : List LogEntry) (s : LoggerState), RingInv m lvl acc s →
      RingInv m lvl (acc ++ es.filter fun e => !decide (e.level < lvl))
        (applyLog s es) := by
  intro es
  induction es with
  | nil => intro acc s inv; simpa [applyLog] using inv
  | cons e rest ih =>
    intro acc s inv
    by_cases he : e.level < lvl
    · have hskip : logLog s e = s := logLog_skip (by rw [inv.minLevel_eq]; exact he)
      have : applyLog s (e :: rest) = applyLog s rest := by
        simp [applyLog, hskip]
      rw [this]
      simpa [he] using ih acc s inv
    · have : applyLog s (e :: rest) = applyLog (logLog s e) rest := by
        simp [applyLog]
      rw [this]
      have inv' := ringInv_log_accept hm inv e he
      have h2 := ih (acc ++ [e]) _ inv'
      simpa [he, List.append_assoc] using h2

/-! ### From the ring to the history -/

theorem range_map_getD_eq_take {α : Type} (l : List α) (d : α) :
    ∀ k, k ≤ l.length → (List.range k).map (fun i => l.getD i d) = l.take k := by
  intro k
  induction k with
  | zero => intro _; simp
  | succ n ih =>
    intro hk
    rw [List.range_succ, List.map_append, ih (by omega), List.take_succ]
    have hn : n < l.length := by omega
    simp [List.getD, List.getElem?_eq_getElem hn]

/-- The newest-first view of an invariant-satisfying logger is the last
`maxSize` accepted entries, newest first. -/
theorem newestFirst_eq {m lvl : Nat} {acc : List LogEntry} {s : LoggerState}
    (inv : RingInv m lvl acc s) : newestFirst s = acc.reverse.take m := by
  unfold newestFirst
  have h1 : ∀ i < s.count,
      s.entries.getD (slot s.head s.maxSize i) zeroEntry = acc.reverse.getD i zeroEntry := by
    intro i hi
    rw [inv.maxSize_eq]
    exact inv.slots i hi
  have h2 : (List.range s.count).map
      (fun i => s.entries.getD (slot s.head s.maxSize i) zeroEntry) =
      (List.range s.count).map (fun i => acc.reverse.getD i zeroEntry) := by
    apply List.map_congr_left
    intro i hi
    exact h1 i (List.mem_range.mp hi)
  rw [h2, range_map_getD_eq_take _ _ _ (by rw [List.length_reverse]; rw [inv.count_eq]; omega)]
  rw [inv.count_eq]
  rcases Nat.le_total acc.length m with h | h
  · rw [Nat.min_eq_left h, List.take_of_length_le (by simp [h]),
      List.take_of_length_le (by simp [h])]
  · rw [Nat.min_eq_right h]

/-- The break-on-limit collection loop over an explicit list. -/
def collectBreak (p : LogEntry → Bool) (limit : Int) : List LogEntry → Nat → List LogEntry
  | [], _ => []
  | e :: rest, taken =>
    if p e then
      if 0 < limit ∧ limit ≤ (taken : Int) + 1 then [e]
      else e :: collectBreak p limit rest (taken + 1)
    else collectBreak p limit rest taken

/-- The `GetEntries` loop reads exactly the newest-first view. -/
theorem getEntriesGo_eq_collect (s : LoggerState) (limit : Int) (ml : Option Nat)
    (cat : Option GoStr) :
    ∀ (rem i taken : Nat), i + rem ≤ s.count →
      getEntriesGo s limit ml cat i rem taken =
        collectBreak (entryPasses ml cat) limit (((newestFirst s).drop i).take rem) taken := by
  intro rem
  induction rem with
  | zero => intro i taken _; simp [getEntriesGo, collectBreak]
  | succ n ih =>
    intro i taken hle
    have hilen : i < (newestFirst s).length := by
      unfold newestFirst
      simp only [List.length_map, List.length_range]
      omega
    have hdrop : (newestFirst s).drop i = (newestFirst s)[i] :: (newestFirst s).drop (i + 1) :=
      List.drop_eq_getElem_cons hilen
    have hget : (newestFirst s)[i] = s.entries.getD (slot s.head s.maxSize i) zeroEntry := by
      unfold newestFirst
      simp
    rw [hdrop, List.take_succ_cons, getEntriesGo]
    simp only [hget]
    by_cases hp : entryPasses ml cat (s.entries.getD (slot s.head s.maxSize i) zeroEntry)
    · rw [collectBreak, if_pos hp, if_pos hp]
      by_cases hbr : 0 < limit ∧ limit ≤ (taken : Int) + 1
      · rw [if_pos hbr, if_pos hbr]
      · rw [if_neg hbr, if_neg hbr, ih (i + 1) (taken + 1) (by omega)]
    · rw [collectBreak, if_neg hp, if_neg hp, ih (i + 1) taken (by omega)]

/-- `GetEntries` is the break-on-limit collection over the newest-first
view. -/
theorem getEntries_eq_collect (s : LoggerState) (limit : Int) (ml : Option Nat)
    (cat : Option GoStr) :
    getEntries s limit ml cat = collectBreak (entryPasses ml cat) limit (newestFirst s) 0 := by
  unfold getEntries
  by_cases h0 : s.count = 0
  · have : newestFirst s = [] := by
      unfold newestFirst
      rw [h0]
      rfl
    rw [if_pos h0, this]
    rfl
  · rw [if_neg h0, getEntriesGo_eq_collect s limit ml cat s.count 0 0 (by omega)]
    have hlen : (newestFirst s).length = s.count := by
      unfold newestFirst
      simp
    rw [List.drop_zero, List.take_of_length_le (by omega)]

/-- With a non-positive limit the loop is a plain filter. -/
theorem collectBreak_nonpos (p : LogEntry → Bool) (limit : Int) (h : limit ≤ 0) :
    ∀ (l : List LogEntry) (taken : Nat),
      collectBreak p limit l taken = l.filter p := by
  intro l
  induction l with
  | nil => intro taken; rfl
  | cons e rest ih =>
    intro taken
    by_cases hp : p e
    · rw [collectBreak, if_pos hp, if_neg (by omega), List.filter_cons_of_pos hp, ih]
    · rw [collectBreak, if_neg hp, List.filter_cons_of_neg (by simpa using hp), ih]

/-- With a positive limit the loop is filter-then-take of the remaining
budget. -/
theorem collectBreak_pos (p : LogEntry → Bool) (limit : Int) (hpos : 0 < limit) :
    ∀ (l : List LogEntry) (taken : Nat), (taken : Int) < limit →
      collectBreak p limit l taken = (l.filter p).take (limit.toNat - taken) := by
  intro l
  induction l with
  | nil => intro taken _; simp [collectBreak]
  | cons e rest ih =>
    intro taken htk
    have hlim : (limit.toNat : Int) = limit := Int.toNat_of_nonneg (by omega)
    by_cases hp : p e
    · rw [collectBreak, if_pos hp, List.filter_cons_of_pos hp]
      by_cases hbr : 0 < limit ∧ limit ≤ (taken : Int) + 1
      · rw [if_pos hbr]
        have h1 : limit.toNat - taken = 1 := by omega
        rw [h1]
        rfl
      · rw [if_neg hbr, ih (taken + 1) (by omega)]
        have h2 : limit.toNat - taken = (limit.toNat - (taken + 1)) + 1 := by omega
        rw [h2]
        rfl
    · rw [collectBreak, if_neg hp, List.filter_cons_of_neg (by simpa using hp),
        ih taken htk]

/-! ### Claim theorems for the log ring -/

/-- C8: over any sequence of `Log` calls on a fresh ring of capacity
`m > 0`: a call below the minimum level leaves the state unchanged;
otherwise entries accumulate, the oldest being dropped beyond `m`, so the
logger retains the most recent at-most-`m` accepted entries; `GetEntries`
returns them newest first, after level and category filtering, truncated
to `limit` when `limit > 0`. -/
theorem logger_ring_retention (m lvl : Nat) (hm : 0 < m) (es : List LogEntry) :
    (∀ e : LogEntry, e.level < lvl →
      logLog (applyLog (mkLogger m lvl) es) e = applyLog (mkLogger m lvl) es) ∧
    newestFirst (applyLog (mkLogger m lvl) es) =
      ((es.filter fun e => !decide (e.level < lvl)).reverse.take m) ∧
    getEntries (applyLog (mkLogger m lvl) es) 0 none none =
      ((es.filter fun e => !decide (e.level < lvl)).reverse.take m) ∧
    (∀ (limit : Int) (ml : Option Nat) (cat : Option GoStr), 0 < limit →
      getEntries (applyLog (mkLogger m lvl) es) limit ml cat =
        (((es.filter fun e => !decide (e.level < lvl)).reverse.take m).filter
          (entryPasses ml cat)).take limit.toNat) ∧
    (∀ (limit : Int) (ml : Option Nat) (cat : Option GoStr), limit ≤ 0 →
      getEntries (applyLog (mkLogger m lvl) es) limit ml cat =
        ((es.filter fun e => !decide (e.level < lvl)).reverse.take m).filter
          (entryPasses ml cat)) := by
  have inv : RingInv m lvl (es.filter fun e => !decide (e.level < lvl))
      (applyLog (mkLogger m lvl) es) := by
    have h := ringInv_applyLog hm es [] (mkLogger m lvl) (ringInv_mk m lvl)
    simpa using h
  have hnf := newestFirst_eq inv
  refine ⟨?_, hnf, ?_, ?_, ?_⟩
  · intro e he
    exact logLog_skip (by rw [inv.minLevel_eq]; exact he)
  · rw [getEntries_eq_collect, collectBreak_nonpos _ 0 le_rfl, hnf]
    have : entryPasses none none = fun _ => true := by
      funext e
      rfl
    rw [this, List.filter_true]
  · intro limit ml cat hpos
    rw [getEntries_eq_collect, collectBreak_pos _ limit hpos _ 0 (by omega), hnf]
    simp
  · intro limit ml cat hneg
    rw [getEntries_eq_collect, collectBreak_nonpos _ limit hneg, hnf]

/-- Witness for C8 on a capacity-2 ring fed four entries, one below the
minimum level: only the last two accepted entries are retained, newest
first, and a limit of 1 truncates to the newest. -/
theorem logger_ring_retention_witness :
    getEntries (applyLog (mkLogger 2 1)
        [⟨0, 0, [], "a".data⟩, ⟨1, 1, [], "b".data⟩, ⟨2, 2, [], "c".data⟩,
          ⟨3, 1, [], "d".data⟩]) 0 none none =
      [⟨3, 1, [], "d".data⟩, ⟨2, 2, [], "c".data⟩] ∧
    getEntries (applyLog (mkLogger 2 1)
        [⟨0, 0, [], "a".data⟩, ⟨1, 1, [], "b".data⟩, ⟨2, 2, [], "c".data⟩,
          ⟨3, 1, [], "d".data⟩]) 1 none none =
      [⟨3, 1, [], "d".data⟩] := by
  have h := logger_ring_retention 2 1 (by norm_num)
    [⟨0, 0, [], "a".data⟩, ⟨1, 1, [], "b".data⟩, ⟨2, 2, [], "c".data⟩,
      ⟨3, 1, [], "d".data⟩]
  constructor
  · rw [h.2.2.1]
    decide
  · rw [h.2.2.2.1 1 none none (by norm_num)]
    decide

/-! ### Global logger initialization (claim C10) -/

/-- The package-level logger state: the `sync.Once` flag and the
`globalLogger` pointer. -/
structure GlobalLoggerState where
  once : Bool
  logger : Option LoggerState
deriving DecidableEq

/-- The process-start state: `once` not fired, `globalLogger == nil`. -/
def freshGlobal : GlobalLoggerState := { once := false, logger := none }

/-- `Init` from `internal/logging/logging.go`: inside `once.Do`, a
non-positive `maxEntries` falls back to 1000 (`DefaultMaxEntries`); once
the `Once` has fired the call does nothing. -/
def initGlobal (g : GlobalLoggerState) (maxEntries : Int) (minLevel : Nat) :
    GlobalLoggerState :=
  if g.once then g
  else
    { once := true
    , logger := some (mkLogger (if maxEntries ≤ 0 then 1000 else maxEntries.toNat) minLevel) }

/-- `Get`: initialize with the defaults (1000 entries, level Debug = 0) if
the global logger is still nil, then return the state. -/
def getGlobal (g : GlobalLoggerState) : GlobalLoggerState :=
  if g.logger = none then initGlobal g 1000 0 else g

/-- C10: logger initialization is effective at most once per process —
once the `Once` has fired (by the first `Init`, or implicitly through
`Get`, which installs 1000 entries and level Debug), every later `Init`
returns with the state, hence capacity and minimum level, unchanged,
whatever its arguments. -/
theorem logger_init_once :
    (∀ (g : GlobalLoggerState) (maxE : Int) (lvl : Nat),
      g.once = true → initGlobal g maxE lvl = g) ∧
    (∀ (maxE : Int) (lvl : Nat), (initGlobal freshGlobal maxE lvl).once = true) ∧
    ((getGlobal freshGlobal).once = true ∧
      (getGlobal freshGlobal).logger = some (mkLogger 1000 0)) ∧
    (∀ (m1 m2 : Int) (l1 l2 : Nat),
      initGlobal (initGlobal freshGlobal m1 l1) m2 l2 = initGlobal freshGlobal m1 l1) ∧
    (∀ (maxE : Int) (lvl : Nat),
      initGlobal (getGlobal freshGlobal) maxE lvl = getGlobal freshGlobal) := by
  have hinit : ∀ (g : GlobalLoggerState) (maxE : Int) (lvl : Nat),
      g.once = true → initGlobal g maxE lvl = g := by
    intro g maxE lvl h
    rw [initGlobal, if_pos h]
  have honce : ∀ (maxE : Int) (lvl : Nat), (initGlobal freshGlobal maxE lvl).once = true := by
    intro maxE lvl
    rw [initGlobal, if_neg (by rw [freshGlobal]; exact Bool.false_ne_true)]
  refine ⟨hinit, honce, ⟨rfl, rfl⟩, ?_, ?_⟩
  · intro m1 m2 l1 l2
    exact hinit _ m2 l2 (honce m1 l1)
  · intro maxE lvl
    exact hinit _ maxE lvl rfl

/-- Witness for C10: after an `Init(500, 3)` a second `Init(7, 0)` leaves
everything unchanged. -/
theorem logger_init_once_witness :
    initGlobal (initGlobal freshGlobal 500 3) 7 0 = initGlobal freshGlobal 500 3 ∧
    (getGlobal freshGlobal).logger = some (mkLogger 1000 0) :=
  ⟨logger_init_once.1 (initGlobal freshGlobal 500 3) 7 0 (logger_init_once.2.1 500 3),
   logger_init_once.2.2.1.2⟩

/-! ## Lab-reader executor idle lifecycle (`internal/proxmark3/persistent.go`;
claim C9) -/

/-- The `PersistentClient` fields touched by the idle-timer path: the busy
flag, whether the child subprocess is running, the configured idle timeout
(negative means never), the armed timer (carrying its full interval) and
whether the child's stdin pipe is still open. -/
structure PMState where
  busy : Bool
  running : Bool
  idleTimeout : Int
  idleTimer : Option Int
  stdinOpen : Bool
deriving DecidableEq

/-- `resetIdleTimerLocked`: stop any existing timer; do not re-arm when the
timeout is negative; otherwise arm a fresh timer for the full interval. -/
def resetIdleTimerLocked (s : PMState) : PMState :=
  if s.idleTimeout < 0 then { s with idleTimer := none }
  else { s with idleTimer := some s.idleTimeout }

/-- `stopLocked`: when running, stop the timer, send `quit`, close stdin
and mark the executor stopped; a no-op otherwise. -/
def stopLocked (s : PMState) : PMState :=
  if s.running then { s with idleTimer := none, stdinOpen := false, running := false }
  else s

/-- The idle timer's `AfterFunc` callback, run under the mutex once the
timer fires (so the armed timer is spent): while busy, reschedule and keep
the child; if the child already stopped, do nothing; otherwise run the
quit/stop sequence.  The boolean reports whether the stop sequence ran. -/
def onIdleExpiry (s : PMState) : PMState × Bool :=
  let s0 := { s with idleTimer := none }
  if s0.busy then (resetIdleTimerLocked s0, false)
  else if s0.running then (stopLocked s0, true)
  else (s0, false)

/-- C9: the idle-expiry path never stops the child mid-command — if the
timer fires while busy, the child keeps running, stdin stays open, and the
timer is re-armed for a full idle interval (the configured timeout, which
is non-negative whenever a timer could be armed at all); the quit/stop
sequence runs only at an expiry with busy false and the child running, and
then it marks the executor stopped. -/
theorem idle_timer_busy_reschedule :
    (∀ s : PMState, s.busy = true →
      (onIdleExpiry s).1.running = s.running ∧
      (onIdleExpiry s).1.stdinOpen = s.stdinOpen ∧
      (onIdleExpiry s).2 = false ∧
      (0 ≤ s.idleTimeout → (onIdleExpiry s).1.idleTimer = some s.idleTimeout)) ∧
    (∀ s : PMState, (onIdleExpiry s).2 = true → s.busy = false ∧ s.running = true) ∧
    (∀ s : PMState, (onIdleExpiry s).2 = true →
      (onIdleExpiry s).1.running = false ∧ (onIdleExpiry s).1.stdinOpen = false) ∧
    (∀ s : PMState, 0 ≤ s.idleTimeout →
      (resetIdleTimerLocked s).idleTimer = some s.idleTimeout) := by
  refine ⟨?_, ?_, ?_, ?_⟩
  · intro s hb
    obtain ⟨b, r, t, tm, st⟩ := s
    simp only at hb
    subst hb
    have hred : onIdleExpiry ⟨true, r, t, tm, st⟩ =
        (resetIdleTimerLocked ⟨true, r, t, none, st⟩, false) := rfl
    rw [hred]
    unfold resetIdleTimerLocked
    by_cases ht0 : (⟨true, r, t, none, st⟩ : PMState).idleTimeout < 0
    · rw [if_pos ht0]
      exact ⟨rfl, rfl, rfl, fun ht => absurd ht0 (not_lt.mpr ht)⟩
    · rw [if_neg ht0]
      exact ⟨rfl, rfl, rfl, fun _ => rfl⟩
  · intro s h
    obtain ⟨b, r, t, tm, st⟩ := s
    cases b
    · cases r
      · simp [onIdleExpiry] at h
      · exact ⟨rfl, rfl⟩
    · simp [onIdleExpiry, resetIdleTimerLocked] at h
  · intro s h
    obtain ⟨b, r, t, tm, st⟩ := s
    cases b
    · cases r
      · simp [onIdleExpiry] at h
      · exact ⟨rfl, rfl⟩
    · simp [onIdleExpiry, resetIdleTimerLocked] at h
  · intro s ht
    unfold resetIdleTimerLocked
    rw [if_neg (by omega)]

/-- Witness for C9 at a busy executor with the default 60-second idle
timeout: the expiry leaves it running and re-arms the timer; and at an
idle running executor the stop sequence runs. -/
theorem idle_timer_busy_reschedule_witness :
    (onIdleExpiry ⟨true, true, 60, some 60, true⟩).1.running = true ∧
    (onIdleExpiry ⟨true, true, 60, some 60, true⟩).1.idleTimer = some 60 ∧
    (onIdleExpiry ⟨true, true, 60, some 60, true⟩).2 = false ∧
    (onIdleExpiry ⟨false, true, 60, some 60, true⟩).2 = true := by
  have h := idle_timer_busy_reschedule.1 ⟨true, true, 60, some 60, true⟩ rfl
  exact ⟨h.1, h.2.2.2 (by norm_num), h.2.2.1, by decide⟩

/-! ## Protocol-demux listener (`internal/certs/mux.go`; claim C7) -/

/-- Error surfaced by the connection model (a read on an exhausted
stream). -/
inductive NetErr where
  | eof
deriving DecidableEq

/-- The server-side view of an accepted TCP connection: the client-sent
bytes not yet read, the current read deadline (seconds), and whether the
connection has been closed. -/
structure RawConn where
  stream : List Nat
  deadline : Option Nat
  closed : Bool
deriving DecidableEq

/-- `Conn.Read` into a buffer of size `sz`: delivers up to `sz` available
bytes; an empty stream yields an error; a zero-size read returns
immediately with no data. -/
def rawRead (c : RawConn) (sz : Nat) : (List Nat × Option NetErr) × RawConn :=
  if sz = 0 then (([], none), c)
  else
    match c.stream with
    | [] => (([], some .eof), c)
    | _ => ((c.stream.take sz, none), { c with stream := c.stream.drop sz })

/-- `peekConn` (mux.go): a connection with a one-byte pushback buffer. -/
structure PeekConn where
  conn : RawConn
  peeked : Bool
  first : Nat
  hasErr : Bool
deriving DecidableEq

/-- `peekConn.peek`: read and store the first byte without consuming it. -/
def pcPeek (p : PeekConn) : (Nat × Option NetErr) × PeekConn :=
  if p.peeked then ((p.first, none), p)
  else
    match rawRead p.conn 1 with
    | ((b :: _, none), c') =>
      ((b, none), { p with conn := c', peeked := true, first := b })
    | ((_, e), c') =>
      ((0, e), { p with conn := c', peeked := true, hasErr := true })

/-- `peekConn.Read`: replay the peeked byte first, then read from the
underlying connection.  Note the source clears `peeked` before checking
the buffer size, so a zero-length read discards the peeked byte. -/
def pcRead (p : PeekConn) (sz : Nat) : (List Nat × Option NetErr) × PeekConn :=
  if p.hasErr then (([], some .eof), p)
  else if p.peeked then
    let p1 := { p with peeked := false }
    if 0 < sz then
      if sz = 1 then (([p.first], none), p1)
      else
        match rawRead p1.conn (sz - 1) with
        | ((bs, e), c') => ((p.first :: bs, e), { p1 with conn := c' })
    else
      match rawRead p1.conn sz with
      | ((bs, e), c') => ((bs, e), { p1 with conn := c' })
  else
    match rawRead p.conn sz with
    | ((bs, e), c') => ((bs, e), { p with conn := c' })

/-- The outcome of `MuxListener.Accept`: a TLS-wrapped connection, a plain
connection, or an error carrying whether the connection was closed and the
`Temporary()` flag of the returned error (`tempError` reports `true`). -/
inductive AcceptResult where
  | tls (conn : PeekConn)
  | plain (conn : PeekConn)
  | err (connClosed : Bool) (temporary : Bool)
deriving DecidableEq

/-- The wrapped connection on which `Accept` performs the peek: the read
deadline has been set to 5 seconds. -/
def muxAcceptPeekConn (stream : List Nat) : PeekConn :=
  { conn := { stream := stream, deadline := some 5, closed := false }
  , peeked := false, first := 0, hasErr := false }

/-- `MuxListener.Accept` after the raw accept: set a 5-second read
deadline, peek one byte, clear the deadline; on a peek failure close the
connection and return a temporary error; dispatch on the peeked byte
(`0x16` → TLS, anything else → plain). -/
def muxAccept (stream : List Nat) : AcceptResult :=
  let pc0 := muxAcceptPeekConn stream
  match pcPeek pc0 with
  | ((_, some _), _) => .err true true
  | ((b, none), pc1) =>
    let pc2 := { pc1 with conn := { pc1.conn with deadline := none } }
    if b = 0x16 then .tls pc2 else .plain pc2

/-- The connection handed to the dispatched handler for a stream starting
with byte `b`. -/
def dispatchedConn (b : Nat) (tail : List Nat) : PeekConn :=
  { conn := { stream := tail, deadline := none, closed := false }
  , peeked := true, first := b, hasErr := false }

/-- Total bytes delivered by a sequence of reads of the given buffer
sizes. -/
def drain : PeekConn → List Nat → List Nat
  | _, [] => []
  | p, sz :: rest => (pcRead p sz).1.1 ++ drain (pcRead p sz).2 rest

/-- Draining an un-peeked connection with non-empty buffers delivers the
whole remaining stream once the buffer sizes cover it. -/
theorem drain_unpeeked (d : Option Nat) (c : Bool) (f : Nat) :
    ∀ (sizes ys : List Nat), (∀ s ∈ sizes, 0 < s) → ys.length ≤ sizes.sum →
      drain ⟨⟨ys, d, c⟩, false, f, false⟩ sizes = ys := by
  intro sizes
  induction sizes with
  | nil =>
    intro ys _ hsum
    have : ys = [] := by
      simpa using List.length_eq_zero.mp (by simpa using hsum)
    simp [drain, this]
  | cons s rest ih =>
    intro ys hpos hsum
    have hs : s ≠ 0 := by
      have := hpos s (List.mem_cons_self _ _)
      omega
    have hposr : ∀ t ∈ rest, 0 < t := fun t ht => hpos t (List.mem_cons_of_mem _ ht)
    cases ys with
    | nil =>
      have h1 : pcRead ⟨⟨[], d, c⟩, false, f, false⟩ s =
          (([], some .eof), ⟨⟨[], d, c⟩, false, f, false⟩) := by
        simp [pcRead, rawRead, hs]
      rw [drain, h1, List.nil_append]
      exact ih [] hposr (by simp)
    | cons y ys' =>
      have h1 : pcRead ⟨⟨y :: ys', d, c⟩, false, f, false⟩ s =
          (((y :: ys').take s, none), ⟨⟨(y :: ys').drop s, d, c⟩, false, f, false⟩) := by
        simp [pcRead, rawRead, hs]
      rw [drain, h1]
      rw [ih ((y :: ys').drop s) hposr (by
        simp only [List.length_drop, List.length_cons]
        simp only [List.sum_cons, List.length_cons] at hsum
        omega)]
      exact List.take_append_drop s (y :: ys')

/-- Draining the dispatched connection with non-empty buffers reproduces
the full client stream, peeked byte included. -/
theorem drain_dispatched (b : Nat) (tail : List Nat) :
    ∀ sizes : List Nat, (∀ s ∈ sizes, 0 < s) → (b :: tail).length ≤ sizes.sum →
      drain (dispatchedConn b tail) sizes = b :: tail := by
  intro sizes hpos hsum
  cases sizes with
  | nil => simp at hsum
  | cons s rest =>
    have hs : 0 < s := hpos s (List.mem_cons_self _ _)
    have hposr : ∀ t ∈ rest, 0 < t := fun t ht => hpos t (List.mem_cons_of_mem _ ht)
    simp only [List.sum_cons] at hsum
    by_cases h1 : s = 1
    · subst h1
      have hr : pcRead (dispatchedConn b tail) 1 =
          (([b], none), ⟨⟨tail, none, false⟩, false, b, false⟩) := by
        simp [pcRead, dispatchedConn]
      rw [drain, hr, drain_unpeeked none false b rest tail hposr (by
        simp only [List.length_cons] at hsum
        omega)]
      rfl
    · have hs1 : s - 1 ≠ 0 := by omega
      cases tail with
      | nil =>
        have hr : pcRead (dispatchedConn b []) s =
            (([b], some .eof), ⟨⟨[], none, false⟩, false, b, false⟩) := by
          simp [pcRead, dispatchedConn, rawRead, hs, h1, hs1]
        rw [drain, hr, drain_unpeeked none false b rest [] hposr (by simp)]
        rfl
      | cons t ts =>
        have hr : pcRead (dispatchedConn b (t :: ts)) s =
            ((b :: (t :: ts).take (s - 1), none),
              ⟨⟨(t :: ts).drop (s - 1), none, false⟩, false, b, false⟩) := by
          simp [pcRead, dispatchedConn, rawRead, hs, h1, hs1]
        rw [drain, hr, drain_unpeeked none false b rest ((t :: ts).drop (s - 1)) hposr (by
          simp only [List.length_drop, List.length_cons] at hsum ⊢
          omega)]
        rw [List.cons_append, List.take_append_drop]

/-- C7 is refuted on one point: after the peek the source clears the
pushback flag before checking the buffer size, so a zero-length downstream
read silently discards the peeked byte — the stream seen downstream is
then not byte-identical to what the client sent. -/
theorem peekConn_zero_read_drops_byte :
    muxAccept [0x41] = .plain (dispatchedConn 0x41 []) ∧
    drain (dispatchedConn 0x41 []) [0, 5] = [] ∧
    drain (dispatchedConn 0x41 []) [0, 5] ≠ [0x41] ∧
    drain (dispatchedConn 0x41 []) [1] = [0x41] := by
  refine ⟨by decide, by decide, by decide, by decide⟩

/-- C7 (amended): `Accept` sets a 5-second read deadline, peeks one byte
and clears the deadline; the dispatched connection replays the peeked
byte, so — provided every downstream read uses a non-empty buffer — the
stream seen downstream is byte-identical to what the client sent (a
zero-length read directly after the peek discards the peeked byte); byte
`0x16` dispatches to TLS, any other byte to the plain pipeline; a peek
failure closes the connection and returns an error whose `Temporary()` is
true, so the accept loop continues. -/
theorem mux_accept_dispatch :
    (∀ xs : List Nat, (muxAcceptPeekConn xs).conn.deadline = some 5) ∧
    (∀ (b : Nat) (tail : List Nat), b ≠ 0x16 →
      muxAccept (b :: tail) = .plain (dispatchedConn b tail)) ∧
    (∀ tail : List Nat, muxAccept (0x16 :: tail) = .tls (dispatchedConn 0x16 tail)) ∧
    muxAccept [] = .err true true ∧
    (∀ (b : Nat) (tail : List Nat), (dispatchedConn b tail).conn.deadline = none) ∧
    (∀ (b : Nat) (tail sizes : List Nat), (∀ s ∈ sizes, 0 < s) →
      (b :: tail).length ≤ sizes.sum →
      drain (dispatchedConn b tail) sizes = b :: tail) := by
  refine ⟨fun _ => rfl, ?_, ?_, by decide, fun _ _ => rfl, drain_dispatched⟩
  · intro b tail hb
    simp [muxAccept, muxAcceptPeekConn, pcPeek, rawRead, dispatchedConn, hb]
  · intro tail
    simp [muxAccept, muxAcceptPeekConn, pcPeek, rawRead, dispatchedConn]

/-- Witness for C7: a plain-HTTP first byte (`0x47`, `G`) dispatches to the
plain pipeline and two 2-byte reads reproduce the 3-byte client stream. -/
theorem mux_accept_dispatch_witness :
    muxAccept [0x47, 0x45, 0x54] = .plain (dispatchedConn 0x47 [0x45, 0x54]) ∧
    drain (dispatchedConn 0x47 [0x45, 0x54]) [2, 2] = [0x47, 0x45, 0x54] := by
  refine ⟨mux_accept_dispatch.2.1 0x47 [0x45, 0x54] (by norm_num), ?_⟩
  exact mux_accept_dispatch.2.2.2.2.2 0x47 [0x45, 0x54] [2, 2] (by decide) (by decide)

/-! ## Lab-reader output framing (`readUntilDoneWithSilence` in
`internal/proxmark3/persistent.go`; claim C6) -/

/-- RE2's `\s` character class. -/
def isSpaceRE (c : Char) : Bool :=
  c = ' ' || c = '\t' || c = '\n' || c = '\x0c' || c = '\r'

/-- Whitespace trimmed by Go's `strings.TrimSpace` (ASCII range). -/
def isSpaceGo (c : Char) : Bool :=
  c = ' ' || c = '\t' || c = '\n' || c = '\x0b' || c = '\x0c' || c = '\r'

/-- `strings.TrimSpace`: drop whitespace from both ends. -/
def goTrimSpace (s : GoStr) : GoStr :=
  ((s.dropWhile isSpaceGo).reverse.dropWhile isSpaceGo).reverse

/-- Matcher for the part of `promptRegex` after the closing bracket:
`\s+pm3\s+-->` followed by anything. -/
def promptTail (s : List Char) : Bool :=
  let s1 := s.dropWhile isSpaceRE
  decide (s1.length < s.length) && "pm3".data.isPrefixOf s1 &&
    (let s2 := s1.drop 3
     let s3 := s2.dropWhile isSpaceRE
     decide (s3.length < s2.length) && "-->".data.isPrefixOf s3)

/-- Scan for a `]` closing `\[.+\]` (a `]` may also occur inside the
dot-plus, so every position is tried). -/
def promptClose : List Char → Bool
  | [] => false
  | ']' :: tail => promptTail tail || promptClose tail
  | _ :: tail => promptClose tail

/-- `promptRegex` of persistent.go: `^\[.+\]\s+pm3\s+-->`. -/
def promptEcho (line : GoStr) : Bool :=
  match line with
  | '[' :: _ :: rest => promptClose rest
  | _ => false

/-- One outcome of `readLineWithTimeout` inside the drain loop: a line
arrived, the silence timer fired first, or the line channel closed. -/
inductive ReadEvent where
  | line (s : GoStr)
  | silence
  | eof
deriving DecidableEq

/-- Result of `readUntilDoneWithSilence`: success with the accumulated
output, the timeout error (`ErrTimeout: no response`), a non-timeout read
error with the partial output, or trace exhaustion (the loop would keep
spinning). -/
inductive ReadResult where
  | ok (out : GoStr)
  | timeoutErr (out : GoStr)
  | readErr (out : GoStr)
  | fuel
deriving DecidableEq

/-- A line the loop keeps: non-empty and not a prompt echo. -/
def acceptedLine (s : GoStr) : Bool := !s.isEmpty && !promptEcho s

/-- `readUntilDoneWithSilence` over an explicit trace of loop iterations:
each step carries whether `time.Now().After(deadline)` held at the top of
the loop, and the event `readLineWithTimeout` produced. -/
def runRead : List (Bool × ReadEvent) → GoStr → Bool → ReadResult
  | [], _, _ => .fuel
  | (expired, ev) :: rest, buf, got =>
    if expired then
      if got then .ok (goTrimSpace buf) else .timeoutErr buf
    else
      match ev with
      | .eof => .readErr buf
      | .silence => if got then .ok (goTrimSpace buf) else runRead rest buf got
      | .line s =>
        if s.isEmpty then runRead rest buf got
        else if promptEcho s then runRead rest buf got
        else runRead rest (buf ++ s ++ ['\n']) true

/-- How a trace terminates the drain loop. -/
inductive TermKind where
  | expiry
  | silenceDone
  | eofErr
deriving DecidableEq

/-- Linear specification scan: the accepted lines collected so far,
together with the terminating step, if the trace reaches one. -/
def frameScan : List (Bool × ReadEvent) → List GoStr → Option (List GoStr × TermKind)
  | [], _ => none
  | (expired, ev) :: rest, ls =>
    if expired then some (ls, .expiry)
    else
      match ev with
      | .eof => some (ls, .eofErr)
      | .silence => if ls.isEmpty then frameScan rest ls else some (ls, .silenceDone)
      | .line s => frameScan rest (if acceptedLine s then ls ++ [s] else ls)

/-- The buffer contents after appending each accepted line plus a
newline. -/
def joinLines (ls : List GoStr) : GoStr := (ls.map (· ++ ['\n'])).flatten

/-- Expected result for a given scan outcome. -/
def renderScan : Option (List GoStr × TermKind) → ReadResult
  | none => .fuel
  | some (ls, .expiry) =>
    if ls.isEmpty then .timeoutErr [] else .ok (goTrimSpace (joinLines ls))
  | some (ls, .silenceDone) => .ok (goTrimSpace (joinLines ls))
  | some (ls, .eofErr) => .readErr (joinLines ls)

theorem joinLines_append (ls : List GoStr) (s : GoStr) :
    joinLines (ls ++ [s]) = joinLines ls ++ (s ++ ['\n']) := by
  simp [joinLines]

/-- The drain loop agrees with the specification scan from any reachable
intermediate state. -/
theorem runRead_eq_renderScan_aux :
    ∀ (t : List (Bool × ReadEvent)) (ls : List GoStr),
      runRead t (joinLines ls) (!ls.isEmpty) = renderScan (frameScan t ls) := by
  intro t
  induction t with
  | nil => intro ls; rfl
  | cons step rest ih =>
    intro ls
    obtain ⟨expired, ev⟩ := step
    by_cases he : expired
    · subst he
      cases hl : ls.isEmpty
      · simp [runRead, frameScan, renderScan, hl]
      · have : ls = [] := List.isEmpty_iff.mp hl
        subst this
        simp [runRead, frameScan, renderScan, joinLines]
    · have he' : expired = false := by simpa using he
      subst he'
      cases ev with
      | eof => simp [runRead, frameScan, renderScan]
      | silence =>
        cases hl : ls.isEmpty
        · simp [runRead, frameScan, renderScan, hl]
        · have : ls = [] := List.isEmpty_iff.mp hl
          subst this
          simpa [runRead, frameScan, renderScan, joinLines] using ih []
      | line s =>
        by_cases hse : s.isEmpty
        · have hacc : acceptedLine s = false := by simp [acceptedLine, hse]
          simpa [runRead, frameScan, hse, hacc] using ih ls
        · by_cases hpe : promptEcho s
          · have hacc : acceptedLine s = false := by simp [acceptedLine, hpe]
            simpa [runRead, frameScan, hse, hpe, hacc] using ih ls
          · have hacc : acceptedLine s = true := by
              simp [acceptedLine, hse, hpe]
            have h1 := ih (ls ++ [s])
            rw [joinLines_append] at h1
            have h2 : (!(ls ++ [s]).isEmpty) = true := by simp
            rw [h2] at h1
            simpa [runRead, frameScan, hse, hpe, hacc, List.append_assoc] using h1

/-- C6: the drain loop of `readUntilDoneWithSilence` is exactly the
silence-framing rule — the result is determined by the first terminating
step of the trace (budget expiry, silence after output, or channel close)
together with the accepted lines before it; in particular a timeout error
is returned iff the budget expires before any non-empty, non-prompt-echo
line arrived (and then the accumulated output is empty), while once such
a line has arrived, both a silence interval and budget expiry complete the
command successfully with the accumulated lines in arrival order, empty
and prompt-echo lines omitted. -/
theorem readUntilDone_framing :
    (∀ t : List (Bool × ReadEvent), runRead t [] false = renderScan (frameScan t [])) ∧
    (∀ (t : List (Bool × ReadEvent)) (out : GoStr),
      runRead t [] false = .timeoutErr out →
        out = [] ∧ frameScan t [] = some ([], .expiry)) ∧
    (∀ t : List (Bool × ReadEvent), frameScan t [] = some ([], .expiry) →
      runRead t [] false = .timeoutErr []) ∧
    (∀ (t : List (Bool × ReadEvent)) (ls : List GoStr) (k : TermKind),
      frameScan t [] = some (ls, k) → ls ≠ [] → k ≠ .eofErr →
        runRead t [] false = .ok (goTrimSpace (joinLines ls))) := by
  have hmain : ∀ t : List (Bool × ReadEvent),
      runRead t [] false = renderScan (frameScan t []) := by
    intro t
    have h := runRead_eq_renderScan_aux t []
    simpa [joinLines] using h
  refine ⟨hmain, ?_, ?_, ?_⟩
  · intro t out hto
    rw [hmain t] at hto
    match hscan : frameScan t [] with
    | none => rw [hscan] at hto; cases hto
    | some (ls, .expiry) =>
      rw [hscan] at hto
      cases hl : ls.isEmpty
      · simp [renderScan, hl] at hto
      · have : ls = [] := List.isEmpty_iff.mp hl
        subst this
        simp [renderScan] at hto
        exact ⟨hto, rfl⟩
    | some (ls, .silenceDone) => rw [hscan] at hto; simp [renderScan] at hto
    | some (ls, .eofErr) => rw [hscan] at hto; simp [renderScan] at hto
  · intro t hscan
    rw [hmain t, hscan]
    rfl
  · intro t ls k hscan hne hk
    rw [hmain t, hscan]
    cases k with
    | expiry =>
      have : ls.isEmpty = false := by
        cases ls with
        | nil => exact absurd rfl hne
        | cons a as => rfl
      simp [renderScan, this]
    | silenceDone => rfl
    | eofErr => exact absurd rfl hk

/-- Witness for C6: a trace with a prompt echo, one output line and a
silence step succeeds with just the line; a trace whose budget expires
with nothing but an empty line yields the timeout error. -/
theorem readUntilDone_framing_witness :
    runRead [(false, .line "[usb] pm3 --> hf 15 reader".data),
        (false, .line "UID: 80391566080104E0".data), (false, .silence)] [] false =
      .ok "UID: 80391566080104E0".data ∧
    runRead [(false, .line "".data), (false, .silence), (true, .silence)] [] false =
      .timeoutErr [] := by
  constructor
  · have h := readUntilDone_framing.2.2.2
      [(false, .line "[usb] pm3 --> hf 15 reader".data),
        (false, .line "UID: 80391566080104E0".data), (false, .silence)]
      ["UID: 80391566080104E0".data] .silenceDone (by decide) (by decide) (by decide)
    rw [h]
    decide
  · exact readUntilDone_framing.2.2.1
      [(false, .line "".data), (false, .silence), (true, .silence)] (by decide)

end NfcAgent
